import Mathlib

/-!
Verification of the tacl configuration service core: the State Store
(pkg/common, `State`, `UpdateKeyAndSave`, `GetValue`, `ToJSON`,
`saveToStorage`), the Sync Reconciler (pkg/sync, `Push`,
`buildTailscaleACLJSON`, `removeIDFields`) and the Capability Authorizer
(pkg/cap, `TailscaleAuthMiddleware`, `matchStringListOrWildcard`,
`firstPathSegment`).

The Go `interface\x7b\x7d` values produced by `encoding/json` are modelled by
`JSONValue`; the handful of Go values that `json.Marshal` rejects
(channels, functions) are modelled by the extra `GoValue.goChan`
constructor.  Go maps are unordered with unique keys; `encoding/json`
serialises them with the keys sorted, which `sortFields` reproduces.
-/

/-- A JSON-compatible value, the shape `encoding/json` produces for an
`interface\x7b\x7d`: null, booleans, numbers, strings, arrays and objects. -/
inductive JSONValue where
  | null : JSONValue
  | bool (b : Bool) : JSONValue
  | num (n : Int) : JSONValue
  | str (s : String) : JSONValue
  | arr (xs : List JSONValue) : JSONValue
  | obj (fs : List (String × JSONValue)) : JSONValue
deriving Repr

mutual

/-- Model of `removeIDFields` (pkg/sync): recursively remove the key
`"id"` from every object, descending into arrays and remaining object
fields; scalars are returned unchanged. -/
def removeIDFields : JSONValue → JSONValue
  | .arr xs => .arr (removeIDList xs)
  | .obj fs => .obj (removeIDObj fs)
  | v => v

/-- The array branch of `removeIDFields`: strip every element. -/
def removeIDList : List JSONValue → List JSONValue
  | [] => []
  | x :: xs => removeIDFields x :: removeIDList xs

/-- The object branch of `removeIDFields`: drop entries keyed `"id"`
(`delete(val, "id")`) and strip the values of the remaining entries. -/
def removeIDObj : List (String × JSONValue) → List (String × JSONValue)
  | [] => []
  | (k, v) :: fs =>
      if k = "id" then removeIDObj fs
      else (k, removeIDFields v) :: removeIDObj fs

end

mutual

/-- Number of object entries carrying key `k`, at every nesting depth. -/
def countKey (k : String) : JSONValue → Nat
  | .arr xs => countKeyList k xs
  | .obj fs => countKeyObj k fs
  | _ => 0

/-- `countKey` summed over the elements of an array. -/
def countKeyList (k : String) : List JSONValue → Nat
  | [] => 0
  | x :: xs => countKey k x + countKeyList k xs

/-- `countKey` over the entries of an object: each entry contributes its
own key match plus the occurrences inside its value. -/
def countKeyObj (k : String) : List (String × JSONValue) → Nat
  | [] => 0
  | (k', v) :: fs => (if k' = k then 1 else 0) + countKey k v + countKeyObj k fs

end

/-- Escape one character the way the `encoding/json` encoder does for the
character ranges this system stores (quote, backslash and the common
control characters; other characters pass through unchanged). -/
def escapeChar (c : Char) : String :=
  if c = '"' then "\\\""
  else if c = '\\' then "\\\\"
  else if c = '\n' then "\\n"
  else if c = '\t' then "\\t"
  else if c = '\r' then "\\r"
  else String.singleton c

/-- A JSON string literal: the escaped text between double quotes. -/
def quoteString (s : String) : String :=
  "\"" ++ String.join (s.toList.map escapeChar) ++ "\""

mutual

/-- Model of `json.MarshalIndent(v, "", "  ")` on a decoded value: `ind`
is the indentation prefix of the enclosing line.  Empty objects render
as `\x7b\x7d` and empty arrays as `[]`, exactly as in Go. -/
def renderValue : JSONValue → String → String
  | .null, _ => "null"
  | .bool true, _ => "true"
  | .bool false, _ => "false"
  | .num n, _ => toString n
  | .str s, _ => quoteString s
  | .arr [], _ => "[]"
  | .arr (x :: xs), ind =>
      "[\n" ++ renderItems (x :: xs) (ind ++ "  ") ++ "\n" ++ ind ++ "]"
  | .obj [], _ => "\x7b\x7d"
  | .obj (f :: fs), ind =>
      "\x7b\n" ++ renderFields (f :: fs) (ind ++ "  ") ++ "\n" ++ ind ++ "\x7d"

/-- Render the elements of a non-empty array, one per line, separated by
commas. -/
def renderItems : List JSONValue → String → String
  | [], _ => ""
  | [x], ind => ind ++ renderValue x ind
  | x :: y :: xs, ind =>
      ind ++ renderValue x ind ++ ",\n" ++ renderItems (y :: xs) ind

/-- Render the entries of a non-empty object, one `"key": value` per
line, separated by commas. -/
def renderFields : List (String × JSONValue) → String → String
  | [], _ => ""
  | [(k, v)], ind => ind ++ quoteString k ++ ": " ++ renderValue v ind
  | (k, v) :: g :: fs, ind =>
      ind ++ quoteString k ++ ": " ++ renderValue v ind ++ ",\n" ++
        renderFields (g :: fs) ind

end

/-- A Go `interface\x7b\x7d` stored in `State.Data`: either a value
`encoding/json` can marshal, or one it rejects (a channel, function,
...), which `goChan` stands for.  The Go `nil` interface marshals to
JSON null and is modelled by `GoValue.json JSONValue.null`. -/
inductive GoValue where
  | json (v : JSONValue) : GoValue
  | goChan : GoValue
deriving Repr

/-- The Go `nil` interface value, as stored in or read from the map. -/
def goNil : GoValue := GoValue.json JSONValue.null

/-- The in-memory document `State.Data : map[string]interface\x7b\x7d`.
A Go map is an unordered collection with unique keys; it is modelled as
an association list, with map equality read extensionally (`mapEquiv`)
and serialisation sorting the keys as `encoding/json` does. -/
abbrev DocMap := List (String × GoValue)

/-- Go map read `s.Data[key]`: the first binding of `k`, if any. -/
def mapLookup (k : String) : DocMap → Option GoValue
  | [] => none
  | (k', v) :: rest => if k' = k then some v else mapLookup k rest

/-- Go map write `s.Data[key] = value`: replace the first binding of `k`
or append a new one. -/
def mapInsert (k : String) (v : GoValue) : DocMap → DocMap
  | [] => [(k, v)]
  | (k', v') :: rest =>
      if k' = k then (k, v) :: rest else (k', v') :: mapInsert k v rest

/-- Extensional equality of Go maps: the same value (or absence) under
every key. -/
def mapEquiv (m₁ m₂ : DocMap) : Prop :=
  ∀ q : String, mapLookup q m₁ = mapLookup q m₂

/-- Insert an entry into a key-sorted field list, keeping it sorted. -/
def insertSorted (p : String × JSONValue) :
    List (String × JSONValue) → List (String × JSONValue)
  | [] => [p]
  | q :: rest => if p.1 ≤ q.1 then p :: q :: rest else q :: insertSorted p rest

/-- Sort object fields by key, as `encoding/json` does for Go maps. -/
def sortFields : List (String × JSONValue) → List (String × JSONValue)
  | [] => []
  | p :: rest => insertSorted p (sortFields rest)

/-- Marshal the document entries: fails (as `json.Marshal` does) when
any stored value is unmarshalable, otherwise yields the JSON fields. -/
def docFieldsRaw : DocMap → Option (List (String × JSONValue))
  | [] => some []
  | (k, GoValue.json v) :: rest => (docFieldsRaw rest).map (fun fs => (k, v) :: fs)
  | (_, GoValue.goChan) :: _ => none

/-- The JSON value `json.Marshal` produces for the whole document: the
object of its entries with keys sorted; `none` on a marshal error. -/
def docValue (d : DocMap) : Option JSONValue :=
  (docFieldsRaw d).map (fun fs => JSONValue.obj (sortFields fs))

/-- `json.MarshalIndent(s.Data, "", "  ")` on the whole document. -/
def marshalDocIndent (d : DocMap) : Option String :=
  (docValue d).map (fun v => renderValue v "")

/-- The persistence configuration of `common.State` together with the
environment behaviour `saveToStorage` meets: a `file://` path whose
write may fail (e.g. a permission error), an `s3://` target whose put
may fail, or an unrecognised/incomplete configuration. -/
inductive StorageCfg where
  | fileStore (writeFails : Bool) : StorageCfg
  | s3Store (putFails : Bool) : StorageCfg
  | badStore : StorageCfg
deriving Repr, DecidableEq

/-- Model of `common.State` plus the backend it writes to: the in-memory
document `Data`, the storage configuration, and the bytes last
successfully persisted (`none` when nothing has been written).  The
`sync.RWMutex` discipline is modelled separately (`CStep`). -/
structure State where
  data : DocMap
  storage : StorageCfg
  persisted : Option String
deriving Repr

/-- Model of `State.saveToStorage`: writes the JSON bytes to the backend
(the file branch appends the trailing newline the code writes); every
failure branch only logs and returns, leaving the backend untouched.
The function returns no error in any branch. -/
def saveToStorage (st : State) (jsonData : String) : State :=
  match st.storage with
  | .fileStore false => { st with persisted := some (jsonData ++ "\n") }
  | .fileStore true => st
  | .s3Store false => { st with persisted := some jsonData }
  | .s3Store true => st
  | .badStore => st

/-- The error `UpdateKeyAndSave` can return: only a marshal failure. -/
inductive UpdateError where
  | marshalError : UpdateError
deriving Repr, DecidableEq

/-- Model of `State.UpdateKeyAndSave`: under the write lock set
`Data[key] = value` and marshal the whole document; on a marshal error
log and return the error (no save); otherwise hand the bytes to
`saveToStorage` and return nil. -/
def UpdateKeyAndSave (st : State) (key : String) (value : GoValue) :
    State × Option UpdateError :=
  let newData := mapInsert key value st.data
  match marshalDocIndent newData with
  | none => ({ st with data := newData }, some UpdateError.marshalError)
  | some bytes => (saveToStorage { st with data := newData } bytes, none)

/-- Model of `State.GetValue`: the Go map read `s.Data[key]`, which
yields the nil interface when the key is absent. -/
def GetValue (st : State) (key : String) : GoValue :=
  (mapLookup key st.data).getD goNil

/-- Model of `State.ToJSON`: pretty-print the whole document, falling
back to `\x7b\x7d` on a marshal error. -/
def ToJSON (st : State) : String :=
  match marshalDocIndent st.data with
  | some s => s
  | none => "\x7b\x7d"

/-- Model of `buildTailscaleACLJSON` (pkg/sync): deep-copy the document
through a marshal/unmarshal round trip, strip the `"id"` fields
recursively, and pretty-print the result; `none` on a marshal error. -/
def buildTailscaleACLJSON (d : DocMap) : Option String :=
  (docValue d).map (fun clone => renderValue (removeIDFields clone) "")

/-- Model of `sync.Push`: build the sanitized policy JSON (a failure is
logged and nothing is pushed), skip the push when the result is the
empty document `\x7b\x7d`, and otherwise push exactly those bytes.
`some s` means the bytes `s` were handed to the admin API. -/
def Push (d : DocMap) : Option String :=
  match buildTailscaleACLJSON d with
  | none => none
  | some policyJSON => if policyJSON = "\x7b\x7d" then none else some policyJSON

/-- One sub-capability of the `lbrlabs.com/cap/tacl` grant
(pkg/cap `TACLManagerCapability`): allowed methods and allowed first
path segments, `"*"` meaning all. -/
structure TACLManagerCapability where
  methods : List String
  endpoints : List String
deriving Repr, DecidableEq

/-- The decoded `lbrlabs.com/cap/tacl` value (`TACLAppCapabilities`): a
list of JSON objects, each mapping sub-capability names such as
`"manager"` to a grant. -/
abbrev TACLAppCapabilities := List (List (String × TACLManagerCapability))

/-- Lookup of a sub-capability name in one element of the capability
list (the Go map index `subcapMap["manager"]`). -/
def lookupSubcap (m : List (String × TACLManagerCapability)) (name : String) :
    Option TACLManagerCapability :=
  (m.find? (fun p => p.1 == name)).map (fun p => p.2)

/-- Model of `stringInSlice`: membership of `needle` in `haystack`. -/
def stringInSlice (needle : String) (haystack : List String) : Bool :=
  haystack.any (fun h => h == needle)

/-- Model of `matchStringListOrWildcard`: true when the list contains
the wildcard `"*"`, otherwise plain membership. -/
def matchStringListOrWildcard (item : String) (list : List String) : Bool :=
  if list.any (fun s => s == "*") then true else stringInSlice item list

/-- Model of `firstPathSegment`: `strings.TrimPrefix(path, "/")` drops
one leading slash; an empty remainder is the empty token; otherwise
`strings.Split(p, "/")[0]` is the text before the next slash.  Written
over the character list so it evaluates structurally. -/
def firstPathSegment (path : String) : String :=
  let p := match path.data with
    | '/' :: rest => String.mk rest
    | _ => path
  if p = "" then "" else String.mk (p.data.takeWhile (fun c => c ≠ '/'))

/-- The authorization core of `TailscaleAuthMiddleware` once the
capability JSON has been decoded: the request is allowed when some
element of the capability list carries a `"manager"` sub-capability
whose method list and endpoint list both match. -/
def managerAllowed (appCaps : TACLAppCapabilities) (method : String)
    (path : String) : Bool :=
  appCaps.any (fun subcapMap =>
    match lookupSubcap subcapMap "manager" with
    | some managerCap =>
        matchStringListOrWildcard method managerCap.methods &&
        matchStringListOrWildcard (firstPathSegment path) managerCap.endpoints
    | none => false)

/-- The middleware decision including the namespace check: an identity
whose capability map has no `lbrlabs.com/cap/tacl` entry is denied
outright; otherwise the decoded capability list decides. -/
def capCheck : Option TACLAppCapabilities → String → String → Bool
  | none, _, _ => false
  | some caps, m, p => managerAllowed caps m p

/-- Does any `"manager"` sub-capability match the empty endpoint token
(by listing it or by the wildcard)? -/
def grantsEmptyEndpoint (caps : TACLAppCapabilities) : Bool :=
  caps.any (fun sm =>
    match lookupSubcap sm "manager" with
    | some mc => matchStringListOrWildcard "" mc.endpoints
    | none => false)

/-- Does some `"manager"` sub-capability list the empty string verbatim
among its endpoints (an explicit grant of the empty token)? -/
def explicitEmptyEndpointGrant (caps : TACLAppCapabilities) : Bool :=
  caps.any (fun sm =>
    match lookupSubcap sm "manager" with
    | some mc => mc.endpoints.contains ""
    | none => false)

/-- One pending `UpdateKeyAndSave` call: the collection key and the new
value the calling goroutine will store. -/
structure WriteReq where
  key : String
  value : GoValue

/-- Where a writer goroutine stands relative to the `RWMutex`: before
`Lock()`, inside the critical section, or past `Unlock()`. -/
inductive Phase where
  | ready : Phase
  | locked : Phase
  | finished : Phase
deriving Repr, DecidableEq

/-- A global snapshot of `n` concurrent writer goroutines and the shared
document: each goroutine phase, the current lock holder, the in-memory
map, and (ghost) the order in which critical sections completed. -/
structure CState (n : Nat) where
  phase : Fin n → Phase
  holder : Option (Fin n)
  data : DocMap
  completed : List (Fin n)

/-- All goroutines pending, the lock free, the document as loaded. -/
def initConc (n : Nat) (d0 : DocMap) : CState n :=
  { phase := fun _ => Phase.ready, holder := none, data := d0, completed := [] }

/-- Effect of goroutine `t` winning `RWLock.Lock()`. -/
def acquireState {n : Nat} (s : CState n) (t : Fin n) : CState n :=
  { s with phase := Function.update s.phase t Phase.locked, holder := some t }

/-- Effect of goroutine `t` running its critical section
(`s.Data[key] = value`; marshal) and releasing the lock: the map write
happens entirely inside the exclusive section, so it is one step. -/
def commitState {n : Nat} (reqs : Fin n → WriteReq) (s : CState n)
    (t : Fin n) : CState n :=
  { phase := Function.update s.phase t Phase.finished
    holder := none
    data := mapInsert (reqs t).key (reqs t).value s.data
    completed := s.completed ++ [t] }

/-- Interleaving semantics of the `sync.RWMutex` write discipline of
`UpdateKeyAndSave`: a pending goroutine may take the free lock; the
holder mutates the document and releases.  Readers and the post-unlock
`saveToStorage` call do not touch `Data` and need no step here. -/
inductive CStep {n : Nat} (reqs : Fin n → WriteReq) :
    CState n → CState n → Prop where
  | acquire (s : CState n) (t : Fin n)
      (hp : s.phase t = Phase.ready) (hl : s.holder = none) :
      CStep reqs s (acquireState s t)
  | commit (s : CState n) (t : Fin n)
      (hp : s.phase t = Phase.locked) (hl : s.holder = some t) :
      CStep reqs s (commitState reqs s t)

/-- Apply the writes named by `order`, first to last, serially. -/
def applyWrites {n : Nat} (reqs : Fin n → WriteReq) :
    List (Fin n) → DocMap → DocMap
  | [], d => d
  | t :: ts, d => applyWrites reqs ts (mapInsert (reqs t).key (reqs t).value d)

/-- The inductive invariant of the lock protocol: the document is the
serial application of the completed writes, each write completed at
most once, and `completed` records exactly the finished goroutines. -/
def ConcInv {n : Nat} (reqs : Fin n → WriteReq) (d0 : DocMap)
    (s : CState n) : Prop :=
  s.data = applyWrites reqs s.completed d0 ∧
  s.completed.Nodup ∧
  ∀ t : Fin n, t ∈ s.completed ↔ s.phase t = Phase.finished

/-- The capability list `[ \x7b manager: \x7b methods: [GET], endpoints:
[acls] \x7d \x7d ]` from the capability-matching scenario. -/
def capsGET : TACLAppCapabilities :=
  [[("manager", { methods := ["GET"], endpoints := ["acls"] })]]

/-- The all-wildcard capability list `[ \x7b manager: \x7b methods: [*],
endpoints: [*] \x7d \x7d ]`. -/
def capsWC : TACLAppCapabilities :=
  [[("manager", { methods := ["*"], endpoints := ["*"] })]]

/-- An empty store over a healthy `file://` backend. -/
def emptyFileState : State :=
  { data := [], storage := StorageCfg.fileStore false, persisted := none }

/-- An empty store over a `file://` backend whose writes fail (e.g. a
filesystem permission error). -/
def brokenFileState : State :=
  { data := [], storage := StorageCfg.fileStore true, persisted := none }

/-- The collection written in the push scenario: `[\x7b id: "abc",
action: "accept" \x7d]`. -/
def aclsWithID : GoValue :=
  GoValue.json (JSONValue.arr
    [JSONValue.obj [("id", JSONValue.str "abc"),
                    ("action", JSONValue.str "accept")]])

/-- The store right after `UpdateKeyAndSave("acls", [\x7b id: "abc",
action: "accept" \x7d])` on an empty store. -/
def scenarioState : State := (UpdateKeyAndSave emptyFileState "acls" aclsWithID).1

/-- The bytes the reconciler pushes in that scenario:
`\x7b "acls": [ \x7b "action": "accept" \x7d ] \x7d` pretty-printed,
with no `id` anywhere. -/
def scenarioPayload : String :=
  "\x7b\n  \"acls\": [\n    \x7b\n      \"action\": \"accept\"\n    \x7d\n  ]\n\x7d"

/-- A store holding a settings object, used by the deletion claims. -/
def settingsState : State :=
  { data := [("settings", GoValue.json (JSONValue.obj [("x", JSONValue.bool true)]))]
    storage := StorageCfg.fileStore false
    persisted := none }

/-- Two concurrent writers on distinct keys, for the serializability
witness. -/
def demoReqs : Fin 2 → WriteReq
  | ⟨0, _⟩ => { key := "acls", value := GoValue.json (JSONValue.str "a") }
  | ⟨1, _⟩ => { key := "hosts", value := GoValue.json (JSONValue.str "h") }

/-- A complete interleaved run of the two demo writers: goroutine 0
takes the lock and commits, then goroutine 1 does. -/
def demoFinal : CState 2 :=
  commitState demoReqs
    (acquireState (commitState demoReqs (acquireState (initConc 2 []) 0) 0) 1) 1

/-- The keys of an object field list. -/
def objKeys (fs : List (String × JSONValue)) : List String :=
  fs.map (fun p => p.1)

mutual

theorem removeIDFields_idem (x : JSONValue) :
    removeIDFields (removeIDFields x) = removeIDFields x := by
  cases x with
  | arr xs => simp [removeIDFields, removeIDList_idem]
  | obj fs => simp [removeIDFields, removeIDObj_idem]
  | null => rfl
  | bool b => rfl
  | num n => rfl
  | str s => rfl

theorem removeIDList_idem (xs : List JSONValue) :
    removeIDList (removeIDList xs) = removeIDList xs := by
  cases xs with
  | nil => rfl
  | cons x xs => simp [removeIDList, removeIDFields_idem, removeIDList_idem]

theorem removeIDObj_idem (fs : List (String × JSONValue)) :
    removeIDObj (removeIDObj fs) = removeIDObj fs := by
  cases fs with
  | nil => rfl
  | cons p fs =>
      obtain ⟨k, v⟩ := p
      by_cases h : k = "id"
      · simp [removeIDObj, h, removeIDObj_idem]
      · simp [removeIDObj, h, removeIDFields_idem, removeIDObj_idem]

end

mutual

theorem countKey_id_strip (x : JSONValue) :
    countKey "id" (removeIDFields x) = 0 := by
  cases x with
  | arr xs => simpa [removeIDFields, countKey] using countKeyList_id_strip xs
  | obj fs => simpa [removeIDFields, countKey] using countKeyObj_id_strip fs
  | null => rfl
  | bool b => rfl
  | num n => rfl
  | str s => rfl

theorem countKeyList_id_strip (xs : List JSONValue) :
    countKeyList "id" (removeIDList xs) = 0 := by
  cases xs with
  | nil => rfl
  | cons x xs =>
      simp [removeIDList, countKeyList, countKey_id_strip, countKeyList_id_strip]

theorem countKeyObj_id_strip (fs : List (String × JSONValue)) :
    countKeyObj "id" (removeIDObj fs) = 0 := by
  cases fs with
  | nil => rfl
  | cons p fs =>
      obtain ⟨k, v⟩ := p
      by_cases h : k = "id"
      · simpa [removeIDObj, h] using countKeyObj_id_strip fs
      · simp [removeIDObj, h, countKeyObj, countKey_id_strip, countKeyObj_id_strip]

end

theorem objKeys_removeIDObj (fs : List (String × JSONValue)) :
    objKeys (removeIDObj fs) = (objKeys fs).filter (fun k => k != "id") := by
  induction fs with
  | nil => rfl
  | cons p fs ih =>
      obtain ⟨k, v⟩ := p
      by_cases h : k = "id"
      · have hb : (k != "id") = false := by simp [h]
        simp [removeIDObj, h, objKeys, List.filter, hb] at ih ⊢
        exact ih
      · have hb : (k != "id") = true := by simpa using h
        simp [removeIDObj, h, objKeys, List.filter, hb] at ih ⊢
        exact ih

theorem mapLookup_insert (q k : String) (v : GoValue) (m : DocMap) :
    mapLookup q (mapInsert k v m) =
      if k = q then some v else mapLookup q m := by
  induction m with
  | nil => by_cases h : k = q <;> simp [mapInsert, mapLookup, h]
  | cons p rest ih =>
      obtain ⟨k', v'⟩ := p
      by_cases h1 : k' = k
      · subst h1
        by_cases h2 : k' = q <;> simp [mapInsert, mapLookup, h2]
      · by_cases h2 : k' = q
        · subst h2
          have : ¬ k = k' := fun h => h1 h.symm
          simp [mapInsert, h1, mapLookup, this]
        · simp [mapInsert, h1, mapLookup, h2, ih]

theorem mapLookup_insert_self (k : String) (v : GoValue) (m : DocMap) :
    mapLookup k (mapInsert k v m) = some v := by
  simp [mapLookup_insert]

theorem mem_mapInsert_self (k : String) (v : GoValue) (m : DocMap) :
    (k, v) ∈ mapInsert k v m := by
  induction m with
  | nil => simp [mapInsert]
  | cons p rest ih =>
      obtain ⟨k', v'⟩ := p
      by_cases h : k' = k <;> simp [mapInsert, h, ih]

theorem saveToStorage_data (st : State) (b : String) :
    (saveToStorage st b).data = st.data := by
  cases h : st.storage with
  | fileStore f => cases f <;> simp [saveToStorage, h]
  | s3Store f => cases f <;> simp [saveToStorage, h]
  | badStore => simp [saveToStorage, h]

theorem UpdateKeyAndSave_data (st : State) (k : String) (v : GoValue) :
    (UpdateKeyAndSave st k v).1.data = mapInsert k v st.data := by
  unfold UpdateKeyAndSave
  cases h : marshalDocIndent (mapInsert k v st.data) with
  | none => simp [h]
  | some bytes => simp [h, saveToStorage_data]

theorem mem_insertSorted (a p : String × JSONValue)
    (l : List (String × JSONValue)) :
    a ∈ insertSorted p l ↔ a = p ∨ a ∈ l := by
  induction l with
  | nil => simp [insertSorted]
  | cons q rest ih =>
      by_cases h : p.1 ≤ q.1
      · simp [insertSorted, h]
      · simp [insertSorted, h, ih]
        tauto

theorem mem_sortFields (a : String × JSONValue)
    (l : List (String × JSONValue)) :
    a ∈ sortFields l ↔ a ∈ l := by
  induction l with
  | nil => simp [sortFields]
  | cons p rest ih => simp [sortFields, mem_insertSorted, ih]

theorem docFieldsRaw_mem (d : DocMap) (k : String) (jv : JSONValue)
    (fs : List (String × JSONValue))
    (hmem : (k, GoValue.json jv) ∈ d) (hfs : docFieldsRaw d = some fs) :
    (k, jv) ∈ fs := by
  induction d generalizing fs with
  | nil => cases hmem
  | cons p rest ih =>
      obtain ⟨k', v'⟩ := p
      cases v' with
      | goChan => simp [docFieldsRaw] at hfs
      | json jv' =>
          simp only [docFieldsRaw, Option.map_eq_some'] at hfs
          obtain ⟨fs', hfs', rfl⟩ := hfs
          rcases List.mem_cons.mp hmem with h | h
          · cases h
            exact List.mem_cons_self _ _
          · exact List.mem_cons_of_mem _ (ih fs' h hfs')

theorem renderValue_arr_ne (xs : List JSONValue) (ind : String) :
    renderValue (JSONValue.arr xs) ind ≠ "\x7b\x7d" := by
  cases xs with
  | nil =>
      intro h
      simp only [renderValue] at h
      exact absurd h (by decide)
  | cons x xs =>
      intro h
      have hd := congrArg String.data h
      have e1 : ("[\n" : String).data = ['[', '\n'] := rfl
      have e2 : ("\x7b\x7d" : String).data = ['\x7b', '\x7d'] := rfl
      simp only [renderValue, String.data_append, e1, e2, List.cons_append,
        List.nil_append] at hd
      rw [List.cons.injEq] at hd
      exact absurd hd.1 (by decide)

theorem renderValue_obj_cons_ne (f : String × JSONValue)
    (fs : List (String × JSONValue)) (ind : String) :
    renderValue (JSONValue.obj (f :: fs)) ind ≠ "\x7b\x7d" := by
  intro h
  have hd := congrArg String.data h
  have e1 : ("\x7b\n" : String).data = ['\x7b', '\n'] := rfl
  have e2 : ("\x7b\x7d" : String).data = ['\x7b', '\x7d'] := rfl
  simp only [renderValue, String.data_append, e1, e2, List.cons_append,
    List.nil_append] at hd
  rw [List.cons.injEq] at hd
  rw [List.cons.injEq] at hd
  exact absurd hd.2.1 (by decide)

theorem stripped_render_empty (j : JSONValue)
    (h : renderValue j "" = "\x7b\x7d") :
    renderValue (removeIDFields j) "" = "\x7b\x7d" := by
  cases j with
  | null => exact h
  | bool b => exact h
  | num n => exact h
  | str s => exact h
  | arr xs => exact absurd h (renderValue_arr_ne xs "")
  | obj fs =>
      cases fs with
      | nil => rfl
      | cons f fs' => exact absurd h (renderValue_obj_cons_ne f fs' "")

/-- Claim C1: whenever a reconciler tick actually pushes bytes, those
bytes are the rendering of the id-stripped document: they contain zero
occurrences of the object key `id` at any nesting depth, and every
object keeps exactly its non-`id` keys (so fields such as `action`
are retained). -/
theorem claim_C1 (st : State) (s : String) (h : Push st.data = some s) :
    ∃ j, docValue st.data = some j ∧
      s = renderValue (removeIDFields j) "" ∧
      countKey "id" (removeIDFields j) = 0 ∧
      ∀ fs, objKeys (removeIDObj fs) = (objKeys fs).filter (fun k => k != "id") := by
  unfold Push buildTailscaleACLJSON at h
  cases hv : docValue st.data with
  | none => rw [hv] at h; simp at h
  | some j =>
      rw [hv] at h
      simp only [Option.map_some'] at h
      by_cases hc : renderValue (removeIDFields j) "" = "\x7b\x7d"
      · rw [if_pos hc] at h; cases h
      · rw [if_neg hc] at h
        exact ⟨j, rfl, (Option.some.inj h).symm, countKey_id_strip j,
          objKeys_removeIDObj⟩

/-- Witness for C1 at the spec scenario: after
`UpdateKeyAndSave("acls", [\x7b id: "abc", action: "accept" \x7d])`
the tick pushes exactly the id-free payload. -/
theorem claim_C1_witness :
    ∃ j, docValue scenarioState.data = some j ∧
      scenarioPayload = renderValue (removeIDFields j) "" ∧
      countKey "id" (removeIDFields j) = 0 ∧
      ∀ fs, objKeys (removeIDObj fs) = (objKeys fs).filter (fun k => k != "id") :=
  claim_C1 scenarioState scenarioPayload rfl

/-- Claim C2: stripping stable identifiers is idempotent, the stripped
value carries zero `id` keys at any depth (inside arrays and nested
objects alike), and every object keeps precisely its keys of other
names — an item name key is never mistaken for the identifier. -/
theorem claim_C2 (x : JSONValue) :
    removeIDFields (removeIDFields x) = removeIDFields x ∧
    countKey "id" (removeIDFields x) = 0 ∧
    ∀ fs, objKeys (removeIDObj fs) = (objKeys fs).filter (fun k => k != "id") :=
  ⟨removeIDFields_idem x, countKey_id_strip x, objKeys_removeIDObj⟩

/-- Claim C8: when the document serialises to the empty document, the
reconciler tick performs no push at all. -/
theorem claim_C8 (st : State) (h : ToJSON st = "\x7b\x7d") :
    Push st.data = none := by
  unfold ToJSON at h
  unfold Push buildTailscaleACLJSON
  cases hv : docValue st.data with
  | none => simp [marshalDocIndent, hv]
  | some j =>
      have hr : renderValue j "" = "\x7b\x7d" := by
        simpa [marshalDocIndent, hv] using h
      simp [marshalDocIndent, hv, stripped_render_empty j hr]

/-- Witness for C8: the freshly created empty store causes zero pushes. -/
theorem claim_C8_witness : Push emptyFileState.data = none :=
  claim_C8 emptyFileState rfl

/-- Counterexample to C3 as stated: with a `file://` backend whose write
fails, `UpdateKeyAndSave` returns nil — not the non-nil error the claim
requires — even though the in-memory document took the update and the
backend was left untouched. -/
theorem claim_C3_counterexample :
    (UpdateKeyAndSave brokenFileState "acls" (GoValue.json (JSONValue.str "x"))).2
      = none ∧
    GetValue (UpdateKeyAndSave brokenFileState "acls"
      (GoValue.json (JSONValue.str "x"))).1 "acls" = GoValue.json (JSONValue.str "x") ∧
    (UpdateKeyAndSave brokenFileState "acls"
      (GoValue.json (JSONValue.str "x"))).1.persisted = none :=
  ⟨rfl, rfl, rfl⟩

/-- Claim C3 amended: when the backend save fails during
`UpdateKeyAndSave` (and the document itself marshals), the in-memory
document still reflects the update — a subsequent `GetValue` returns
the new value — the call returns normally, and the persistence failure
is only logged: the returned error is nil and the backend keeps its
previous contents. -/
theorem claim_C3_amended (st : State) (key : String) (v : GoValue) (j : String)
    (hfail : st.storage = StorageCfg.fileStore true)
    (hm : marshalDocIndent (mapInsert key v st.data) = some j) :
    GetValue (UpdateKeyAndSave st key v).1 key = v ∧
    (UpdateKeyAndSave st key v).2 = none ∧
    (UpdateKeyAndSave st key v).1.persisted = st.persisted := by
  have hd : UpdateKeyAndSave st key v
      = (saveToStorage { st with data := mapInsert key v st.data } j, none) := by
    simp only [UpdateKeyAndSave]
    rw [hm]
  rw [hd]
  refine ⟨?_, rfl, ?_⟩
  · unfold GetValue
    rw [saveToStorage_data]
    simp [mapLookup_insert_self]
  · simp [saveToStorage, hfail]

/-- Witness for the amended C3 at a concrete broken-file store. -/
theorem claim_C3_amended_witness :
    GetValue (UpdateKeyAndSave brokenFileState "hosts"
      (GoValue.json (JSONValue.num 7))).1 "hosts" = GoValue.json (JSONValue.num 7) ∧
    (UpdateKeyAndSave brokenFileState "hosts" (GoValue.json (JSONValue.num 7))).2
      = none ∧
    (UpdateKeyAndSave brokenFileState "hosts"
      (GoValue.json (JSONValue.num 7))).1.persisted = brokenFileState.persisted :=
  claim_C3_amended brokenFileState "hosts" (GoValue.json (JSONValue.num 7))
    "\x7b\n  \"hosts\": 7\n\x7d" rfl rfl

/-- Counterexample to C4 as stated: storing an unmarshalable value (a
channel) makes serialization fail and `UpdateKeyAndSave` return an
error, but the in-memory document is NOT left unchanged — the key now
holds the new value. -/
theorem claim_C4_counterexample :
    (UpdateKeyAndSave emptyFileState "acls" GoValue.goChan).2
      = some UpdateError.marshalError ∧
    (UpdateKeyAndSave emptyFileState "acls" GoValue.goChan).1.data
      = [("acls", GoValue.goChan)] ∧
    emptyFileState.data = [] :=
  ⟨rfl, rfl, rfl⟩

/-- Claim C4 amended: when marshalling the document fails during
`UpdateKeyAndSave`, the call returns a non-nil error and the
Persistence Backend is not invoked, but the in-memory mutation stands:
the key holds the new value (there is no rollback). -/
theorem claim_C4_amended (st : State) (key : String) (v : GoValue)
    (hm : marshalDocIndent (mapInsert key v st.data) = none) :
    (UpdateKeyAndSave st key v).2 = some UpdateError.marshalError ∧
    (UpdateKeyAndSave st key v).1.data = mapInsert key v st.data ∧
    (UpdateKeyAndSave st key v).1.persisted = st.persisted := by
  have hd : UpdateKeyAndSave st key v
      = ({ st with data := mapInsert key v st.data },
          some UpdateError.marshalError) := by
    simp only [UpdateKeyAndSave]
    rw [hm]
  rw [hd]
  exact ⟨rfl, rfl, rfl⟩

/-- Witness for the amended C4: a channel value defeats the marshal. -/
theorem claim_C4_amended_witness :
    (UpdateKeyAndSave emptyFileState "settings" GoValue.goChan).2
      = some UpdateError.marshalError ∧
    (UpdateKeyAndSave emptyFileState "settings" GoValue.goChan).1.data
      = mapInsert "settings" GoValue.goChan emptyFileState.data ∧
    (UpdateKeyAndSave emptyFileState "settings" GoValue.goChan).1.persisted
      = emptyFileState.persisted :=
  claim_C4_amended emptyFileState "settings" GoValue.goChan rfl

/-- Counterexample to C5 as stated: after `UpdateKeyAndSave("settings",
nil)` the key is still present in the document — bound to the nil
value — rather than removed. -/
theorem claim_C5_counterexample :
    mapLookup "settings"
      (UpdateKeyAndSave settingsState "settings" goNil).1.data = some goNil :=
  rfl

/-- Claim C5 amended: `UpdateKeyAndSave(k, nil)` does not remove the
key; it binds it to the nil value.  The entry stays in the document
(`nil` under `k`), although `GetValue` then reports the same nil it
reports for an absent key. -/
theorem claim_C5_amended (st : State) (k : String) :
    mapLookup k (UpdateKeyAndSave st k goNil).1.data = some goNil ∧
    GetValue (UpdateKeyAndSave st k goNil).1 k = goNil := by
  have hd := UpdateKeyAndSave_data st k goNil
  constructor
  · rw [hd, mapLookup_insert_self]
  · unfold GetValue
    rw [hd, mapLookup_insert_self]
    rfl

/-- Claim C10: after `UpdateKeyAndSave(k, nil)`, `GetValue k` returns
nil exactly as it does for a key never written, while the document
`ToJSON` serialises still carries an entry for `k` whose value is JSON
null (whenever the document marshals at all, `ToJSON` renders exactly
that object). -/
theorem claim_C10 (st : State) (k : String) :
    GetValue (UpdateKeyAndSave st k goNil).1 k = goNil ∧
    (∀ st₂ : State, mapLookup k st₂.data = none → GetValue st₂ k = goNil) ∧
    mapLookup k (UpdateKeyAndSave st k goNil).1.data = some goNil ∧
    ∀ fs, docFieldsRaw (UpdateKeyAndSave st k goNil).1.data = some fs →
      (k, JSONValue.null) ∈ fs ∧
      ToJSON (UpdateKeyAndSave st k goNil).1
        = renderValue (JSONValue.obj (sortFields fs)) "" := by
  have hd := UpdateKeyAndSave_data st k goNil
  refine ⟨?_, ?_, ?_, ?_⟩
  · unfold GetValue; rw [hd, mapLookup_insert_self]; rfl
  · intro st₂ h2; unfold GetValue; rw [h2]; rfl
  · rw [hd, mapLookup_insert_self]
  · intro fs hfs
    constructor
    · exact docFieldsRaw_mem _ k JSONValue.null fs
        (by rw [hd]; exact mem_mapInsert_self k goNil st.data) hfs
    · unfold ToJSON
      simp [marshalDocIndent, docValue, hfs]

/-- Witness for C10 at the settings store: deleting the settings leaves
`"settings": null` in the serialised document while `GetValue` sees
nil. -/
theorem claim_C10_witness :
    GetValue (UpdateKeyAndSave settingsState "settings" goNil).1 "settings" = goNil ∧
    GetValue emptyFileState "settings" = goNil ∧
    mapLookup "settings"
      (UpdateKeyAndSave settingsState "settings" goNil).1.data = some goNil ∧
    ("settings", JSONValue.null) ∈ [("settings", JSONValue.null)] ∧
    ToJSON (UpdateKeyAndSave settingsState "settings" goNil).1
      = renderValue (JSONValue.obj (sortFields [("settings", JSONValue.null)])) "" := by
  have h := claim_C10 settingsState "settings"
  have h4 := h.2.2.2 [("settings", JSONValue.null)] rfl
  exact ⟨h.1, h.2.1 emptyFileState rfl, h.2.2.1, h4.1, h4.2⟩

/-- Claim C6: with the `[\x7b manager: \x7b methods: [GET], endpoints:
[acls] \x7d \x7d]` capability, `GET /acls` is authorized while
`POST /acls` and `GET /hosts` are denied; with the all-wildcard
capability every request is authorized; an identity carrying no
`lbrlabs.com/cap/tacl` entry is denied for every request. -/
theorem claim_C6 :
    managerAllowed capsGET "GET" "/acls" = true ∧
    managerAllowed capsGET "POST" "/acls" = false ∧
    managerAllowed capsGET "GET" "/hosts" = false ∧
    (∀ m p : String, managerAllowed capsWC m p = true) ∧
    (∀ m p : String, capCheck none m p = false) := by
  refine ⟨by decide, by decide, by decide, ?_, fun m p => rfl⟩
  intro m p
  simp [managerAllowed, capsWC, lookupSubcap, matchStringListOrWildcard,
    List.find?, List.any]

/-- Counterexample to C7 as stated: the all-wildcard capability list
grants the empty endpoint token nowhere explicitly, yet a request for
the root path `/` (whose first path segment is the empty token) is
authorized, because the wildcard matches the empty token too. -/
theorem claim_C7_counterexample :
    explicitEmptyEndpointGrant capsWC = false ∧
    firstPathSegment "/" = "" ∧
    managerAllowed capsWC "GET" "/" = true := by
  refine ⟨by decide, by decide, by decide⟩

/-- Claim C7 amended: a request whose path has no segments (root `/` or
the empty path) is denied for every capability list in which no
`manager` sub-capability matches the empty endpoint token — that is,
none lists the empty token or the wildcard; the empty first path
segment matches nothing else. -/
theorem claim_C7_amended (caps : TACLAppCapabilities) (m path : String)
    (hpath : path = "/" ∨ path = "")
    (hno : grantsEmptyEndpoint caps = false) :
    managerAllowed caps m path = false := by
  have hfps : firstPathSegment path = "" := by
    rcases hpath with rfl | rfl <;> rfl
  unfold managerAllowed
  rw [hfps]
  rw [List.any_eq_false]
  intro sm hsm
  unfold grantsEmptyEndpoint at hno
  rw [List.any_eq_false] at hno
  have hsm' := hno sm hsm
  cases hlk : lookupSubcap sm "manager" with
  | none => simp
  | some mc =>
      rw [hlk] at hsm'
      simp only [Bool.not_eq_true] at hsm' ⊢
      simp [hsm']

/-- Witness for the amended C7: the GET/acls capability never grants
the empty token, so the root path is denied. -/
theorem claim_C7_amended_witness :
    managerAllowed capsGET "GET" "/" = false :=
  claim_C7_amended capsGET "GET" "/" (Or.inl rfl) rfl

theorem applyWrites_append {n : Nat} (reqs : Fin n → WriteReq)
    (l : List (Fin n)) (t : Fin n) (d : DocMap) :
    applyWrites reqs (l ++ [t]) d
      = mapInsert (reqs t).key (reqs t).value (applyWrites reqs l d) := by
  induction l generalizing d with
  | nil => rfl
  | cons u l ih => simp [applyWrites, ih]

theorem mapEquiv_refl (m : DocMap) : mapEquiv m m := fun _ => rfl

theorem mapEquiv_trans {m₁ m₂ m₃ : DocMap} (h₁ : mapEquiv m₁ m₂)
    (h₂ : mapEquiv m₂ m₃) : mapEquiv m₁ m₃ :=
  fun q => (h₁ q).trans (h₂ q)

theorem mapEquiv_insert (k : String) (v : GoValue) {m₁ m₂ : DocMap}
    (h : mapEquiv m₁ m₂) : mapEquiv (mapInsert k v m₁) (mapInsert k v m₂) := by
  intro q
  rw [mapLookup_insert, mapLookup_insert, h q]

theorem mapEquiv_insert_swap (k₁ k₂ : String) (v₁ v₂ : GoValue) (m : DocMap)
    (hk : k₁ ≠ k₂) :
    mapEquiv (mapInsert k₁ v₁ (mapInsert k₂ v₂ m))
      (mapInsert k₂ v₂ (mapInsert k₁ v₁ m)) := by
  intro q
  rw [mapLookup_insert, mapLookup_insert, mapLookup_insert, mapLookup_insert]
  by_cases h1 : k₁ = q
  · by_cases h2 : k₂ = q
    · exact absurd (h1.trans h2.symm) hk
    · simp [h1, h2]
  · by_cases h2 : k₂ = q <;> simp [h1, h2]

theorem mapEquiv_applyWrites {n : Nat} (reqs : Fin n → WriteReq)
    (l : List (Fin n)) {d₁ d₂ : DocMap} (h : mapEquiv d₁ d₂) :
    mapEquiv (applyWrites reqs l d₁) (applyWrites reqs l d₂) := by
  induction l generalizing d₁ d₂ with
  | nil => exact h
  | cons t l ih => exact ih (mapEquiv_insert _ _ h)

theorem applyWrites_perm {n : Nat} (reqs : Fin n → WriteReq)
    (hdist : ∀ t u : Fin n, t ≠ u → (reqs t).key ≠ (reqs u).key)
    {l₁ l₂ : List (Fin n)} (h : l₁.Perm l₂) (d : DocMap) :
    mapEquiv (applyWrites reqs l₁ d) (applyWrites reqs l₂ d) := by
  induction h generalizing d with
  | nil => exact mapEquiv_refl d
  | cons x h ih => exact ih (mapInsert (reqs x).key (reqs x).value d)
  | swap x y l =>
      show mapEquiv (applyWrites reqs l _) (applyWrites reqs l _)
      refine mapEquiv_applyWrites reqs l ?_
      by_cases hxy : x = y
      · subst hxy; exact mapEquiv_refl _
      · exact mapEquiv_insert_swap _ _ _ _ _ (hdist x y hxy)
  | trans h₁ h₂ ih₁ ih₂ => exact mapEquiv_trans (ih₁ d) (ih₂ d)

theorem concInv_init {n : Nat} (reqs : Fin n → WriteReq) (d0 : DocMap) :
    ConcInv reqs d0 (initConc n d0) := by
  refine ⟨rfl, List.nodup_nil, ?_⟩
  intro t
  simp [initConc]

theorem concInv_step {n : Nat} (reqs : Fin n → WriteReq) (d0 : DocMap)
    {s₁ s₂ : CState n} (hstep : CStep reqs s₁ s₂)
    (hinv : ConcInv reqs d0 s₁) : ConcInv reqs d0 s₂ := by
  obtain ⟨hdata, hnd, hiff⟩ := hinv
  cases hstep with
  | acquire t hp hl =>
      refine ⟨hdata, hnd, ?_⟩
      intro u
      by_cases hu : u = t
      · subst hu
        rw [acquireState]
        simp only [Function.update_same]
        constructor
        · intro hmem
          exact absurd ((hiff u).mp hmem) (by rw [hp]; intro h; cases h)
        · intro h; cases h
      · rw [acquireState]
        simp only [Function.update_noteq hu]
        exact hiff u
  | commit t hp hl =>
      have htnotmem : t ∉ s₁.completed := by
        intro hmem
        have := (hiff t).mp hmem
        rw [hp] at this
        cases this
      refine ⟨?_, ?_, ?_⟩
      · rw [commitState]
        simp only
        rw [hdata, ← applyWrites_append]
      · rw [commitState]
        simp only
        rw [List.nodup_append]
        exact ⟨hnd, List.nodup_singleton t, by simpa using htnotmem⟩
      · intro u
        rw [commitState]
        simp only [List.mem_append, List.mem_singleton]
        by_cases hu : u = t
        · subst hu
          simp [Function.update_same]
        · simp only [Function.update_noteq hu, hu, or_false]
          exact hiff u

theorem concInv_reach {n : Nat} (reqs : Fin n → WriteReq) (d0 : DocMap)
    {s : CState n}
    (hexec : Relation.ReflTransGen (CStep reqs) (initConc n d0) s) :
    ConcInv reqs d0 s := by
  induction hexec with
  | refl => exact concInv_init reqs d0
  | tail h hstep ih => exact concInv_step reqs d0 hstep ih

/-- Claim C9: for concurrent `UpdateKeyAndSave` calls on pairwise
distinct keys, every complete interleaving of the lock protocol leaves
the in-memory document equal (as a map) to the serial application of
the same writes — in fact in any serial order; no write is lost and
none is partially applied, since each map write happens atomically
inside the exclusive critical section. -/
theorem claim_C9 {n : Nat} (reqs : Fin n → WriteReq) (d0 : DocMap)
    (s : CState n)
    (hdist : ∀ t u : Fin n, t ≠ u → (reqs t).key ≠ (reqs u).key)
    (hexec : Relation.ReflTransGen (CStep reqs) (initConc n d0) s)
    (hdone : ∀ t : Fin n, s.phase t = Phase.finished)
    (order : List (Fin n)) (hnd : order.Nodup) (hall : ∀ t : Fin n, t ∈ order) :
    mapEquiv s.data (applyWrites reqs order d0) := by
  obtain ⟨hdata, hcnd, hiff⟩ := concInv_reach reqs d0 hexec
  have hperm : s.completed.Perm order := by
    rw [List.perm_ext_iff_of_nodup hcnd hnd]
    intro t
    constructor
    · intro _; exact hall t
    · intro _; exact (hiff t).mpr (hdone t)
  rw [hdata]
  exact applyWrites_perm reqs hdist hperm d0

/-- Witness for C9: a concrete complete interleaving of two writers on
distinct keys (acquire/commit of goroutine 0, then of goroutine 1)
ends in the document obtained by the serial order 1 then 0 as well. -/
theorem claim_C9_witness :
    mapEquiv demoFinal.data (applyWrites demoReqs [1, 0] []) :=
  claim_C9 demoReqs [] demoFinal (by decide)
    (Relation.ReflTransGen.tail
      (Relation.ReflTransGen.tail
        (Relation.ReflTransGen.tail
          (Relation.ReflTransGen.tail Relation.ReflTransGen.refl
            (CStep.acquire (initConc 2 []) 0 rfl rfl))
          (CStep.commit (acquireState (initConc 2 []) 0) 0 rfl rfl))
        (CStep.acquire (commitState demoReqs (acquireState (initConc 2 []) 0) 0)
          1 rfl rfl))
      (CStep.commit
        (acquireState (commitState demoReqs (acquireState (initConc 2 []) 0) 0) 1)
        1 rfl rfl))
    (by decide) [1, 0] (by decide) (by decide)
